import Mathlib

/-!
Verification of the output-area view layer of `@jupyterlab/outputarea`
(`src/views.ts`, `src/actions.ts`): the area reconciliation algorithm of
`OutputAreaView._onRefreshRequest`, the mime bundle derivation of
`Private.getData` / `Private.getMetadata` / `Private.formatError`, the
renderer reuse logic of `OutputItemView._onRefreshRequest`, the
empty-default fallbacks of the store-change handlers, and the refresh
conflation discipline of the message loop.
-/

namespace OutputAreaViews

/-! ## Data model

The output data model lives in `models.ts`.  The shapes below follow the
spec's data model section and the way `views.ts` consumes the values. -/

/-- Modelled from the spec: an Output Area from `models.ts` —
`{ trusted, itemIds (outputItemIds), awaitingClear }`. -/
structure OutputArea where
  trusted : Bool
  outputItemIds : List String
  awaitingClear : Bool
deriving DecidableEq, Repr

/-- Modelled from the spec: an Output Item from `models.ts`, a tagged union
over the four notebook output kinds.  Mime bundles and metadata bundles are
association lists from mime-type keys to (abstract) JSON values, here
strings.  `unrecognized` stands for the default arm of the `switch` on
`item.type` in `views.ts`.  The `traceback` field is a single (pre-joined)
string, matching its use as `item.traceback || ...` of type `string` in
`Private.formatError`. -/
inductive OutputItem where
  | executeResult (executionCount : Int) (data metadata : List (String × String))
  | displayData (data metadata : List (String × String))
  | stream (name text : String)
  | error (ename evalue traceback : String)
  | unrecognized
deriving DecidableEq, Repr

/-- The `type` discriminant string of an output item. -/
def OutputItem.type : OutputItem → String
  | .executeResult _ _ _ => "execute_result"
  | .displayData _ _ => "display_data"
  | .stream _ _ => "stream"
  | .error _ _ _ => "error"
  | .unrecognized => "unrecognized"

/-- Modelled from the spec: the store state from `models.ts` — two lookup
tables, areas by id and items by id, as consumed through
`store.state.outputAreaTable.get` / `store.state.outputItemTable.get`
in `views.ts`. -/
structure OutputStoreState where
  outputAreaTable : List (String × OutputArea)
  outputItemTable : List (String × OutputItem)
deriving DecidableEq, Repr

/-- Modelled from the spec: `Private.emptyArea = new OutputArea()`, the
well-defined empty default Output Area (no items, untrusted, no pending
clear). -/
def emptyArea : OutputArea := ⟨false, [], false⟩

/-- Modelled from the spec: `Private.emptyItem = new DisplayDataOutput()`,
the well-defined empty default Output Item, a display-data item with empty
data and metadata. -/
def emptyItem : OutputItem := .displayData [] []

/-! ## `Private.getData`, `Private.getMetadata`, `Private.formatError` -/

/-- Source `Private.formatError`: `item.traceback` when truthy, else the
string `ename + ": " + evalue`. -/
def formatError (ename evalue traceback : String) : String :=
  if traceback = "" then ename ++ ": " ++ evalue else traceback

/-- Source `Private.getData`: the mime bundle derived from an output item by the
`switch` on `item.type`. -/
def getData : OutputItem → List (String × String)
  | .executeResult _ data _ => data
  | .displayData data _ => data
  | .stream name text => [("application/vnd.jupyter." ++ name, text)]
  | .error ename evalue traceback =>
      [("application/vnd.jupyter.stderr", formatError ename evalue traceback)]
  | .unrecognized => []

/-- Source `Private.getMetadata`: the mime metadata derived from an output item. -/
def getMetadata : OutputItem → List (String × String)
  | .executeResult _ _ metadata => metadata
  | .displayData _ metadata => metadata
  | _ => []

/-! ## Area reconciliation (`OutputAreaView._onRefreshRequest`)

A live child widget of the area's `PanelLayout`.  `wid` models reference
identity (widgets are compared with `===` in the source); `tag` is
`some itemId` when the widget is an `OutputItemView`, `none` for any other
widget kind. -/

structure Widget where
  wid : Nat
  tag : Option String
deriving DecidableEq, Repr

/-- Assignment of `m[k] = w` on a JS object used as a map: overwrite the value
when the key is present (keeping its insertion position), append otherwise. -/
def mapInsert (k : String) (w : Widget) (m : List (String × Widget)) :
    List (String × Widget) :=
  if m.any (fun p => decide (p.1 = k)) then m.map (fun p => if p.1 = k then (k, w) else p)
  else m ++ [(k, w)]

/-- Deletion `delete m[k]` on a JS object used as a map. -/
def mapDelete (k : String) (m : List (String × Widget)) : List (String × Widget) :=
  m.filter (fun p => decide (p.1 ≠ k))

/-- Lookup `m[k]` on a JS object used as a map. -/
def mapLookup (k : String) : List (String × Widget) → Option Widget
  | [] => none
  | (k2, w) :: m => if k = k2 then some w else mapLookup k m

/-- Index of a widget among the layout's children, by reference identity
(`ArrayExt.firstIndexOf`, with `-1` rendered as `none`). -/
def idxOf? (v : Widget) : List Widget → Option Nat
  | [] => none
  | w :: ws => if w = v then some 0 else (idxOf? v ws).map (· + 1)

/-- The `itemIdMap` built by the first loop of `_onRefreshRequest`: walk the
layout's widgets and record each `OutputItemView` under its `itemId`. -/
def buildMap (ws : List Widget) : List (String × Widget) :=
  ws.foldl (fun m w => match w.tag with | some t => mapInsert t w m | none => m) []

/-- Modelled from the spec's host view-tree primitives:
`PanelLayout.insertWidget(i, v)` from `@phosphor/widgets`: clamp the index; if the widget is not
already a child, insert it at the clamped index; otherwise move it from its
current index to the clamped (and end-adjusted) index. -/
def insertWidget (ws : List Widget) (i : Nat) (v : Widget) : List Widget :=
  let j := min i ws.length
  match idxOf? v ws with
  | none => ws.insertIdx j v
  | some ci =>
      let j2 := if j = ws.length then j - 1 else j
      if ci = j2 then ws else (ws.eraseIdx ci).insertIdx j2 v

/-- The state threaded through the synchronization loop of
`_onRefreshRequest`: the layout's widgets, the remaining `itemIdMap`, the
allocation counter for brand-new views, and the log of created views and of
`insertWidget` calls. -/
structure RecState where
  widgets : List Widget
  lookupMap : List (String × Widget)
  freshId : Nat
  created : List Widget
  inserts : Nat
deriving DecidableEq, Repr

/-- One iteration of the synchronization loop (`for i ... of outputItemIds`):
claim the view for `itemId` from the map, or construct a brand-new view;
then `if (layout.widgets[i] !== view) layout.insertWidget(i, view)`. -/
def syncStep (i : Nat) (itemId : String) (s : RecState) : RecState :=
  let pick : Widget × RecState :=
    match mapLookup itemId s.lookupMap with
    | some w => (w, { s with lookupMap := mapDelete itemId s.lookupMap })
    | none =>
        let w : Widget := ⟨s.freshId, some itemId⟩
        (w, { s with freshId := s.freshId + 1, created := s.created ++ [w] })
  let w := pick.1
  let s1 := pick.2
  if s1.widgets[i]? = some w then s1
  else { s1 with widgets := insertWidget s1.widgets i w, inserts := s1.inserts + 1 }

/-- The synchronization loop of `_onRefreshRequest`, walking `outputItemIds`
by position. -/
def syncLoop : List String → Nat → RecState → RecState
  | [], _, s => s
  | itemId :: rest, i, s => syncLoop rest (i + 1) (syncStep i itemId s)

/-- The outcome of one run of the area reconciliation: the final child list,
the brand-new views created, the stale views disposed, the number of
`insertWidget` calls, and the final allocation counter. -/
structure ReconcileResult where
  widgets : List Widget
  created : List Widget
  disposed : List Widget
  inserts : Nat
  freshId : Nat
deriving DecidableEq, Repr

/-- One run of `OutputAreaView._onRefreshRequest` over the layout: build the
`itemIdMap`, synchronize the layout with `itemIds`, then dispose every view
remaining in the map (`dispose()` removes the widget from its parent
layout). -/
def reconcile (itemIds : List String) (ws : List Widget) (freshId : Nat) :
    ReconcileResult :=
  let s := syncLoop itemIds 0 ⟨ws, buildMap ws, freshId, [], 0⟩
  let leftovers := s.lookupMap.map Prod.snd
  ⟨s.widgets.filter (fun w => decide (¬ w ∈ leftovers)), s.created, leftovers,
    s.inserts, s.freshId⟩

/-- The itemId tags of the `OutputItemView` children, in layout order. -/
def tagsOf (ws : List Widget) : List String := ws.filterMap Widget.tag

/-- The `itemIdMap` entries contributed by a widget list with pairwise
distinct tags, in order. -/
def entriesOf (ws : List Widget) : List (String × Widget) :=
  ws.filterMap (fun w => w.tag.map (fun t => (t, w)))

/-- Whether a widget survives reconciliation against `ids` without being
claimed: any non-item widget, or an item view whose tag is absent from
`ids`. -/
def keepB (ids : List String) (w : Widget) : Bool :=
  match w.tag with
  | none => true
  | some t => decide (¬ t ∈ ids)

/-! ## Item refresh (`OutputItemView._onRefreshRequest`) -/

/-- A renderer instance produced by `rendermime.createRenderer(mimeType)`.
The `rid` field models reference identity; `mimeType` is the mime type it
was created for. -/
structure Renderer where
  rid : Nat
  mimeType : String
deriving DecidableEq, Repr

/-- The mime model `{ trusted, data, metadata, setData }` passed to
`renderer.renderModel` (the `setData` callback carries no state that the
claims depend on, so it is not modelled). -/
structure MimeModel where
  trusted : Bool
  data : List (String × String)
  metadata : List (String × String)
deriving DecidableEq, Repr

/-- The mutable state of an `OutputItemView`: the `SingletonLayout`'s child
widget, the `node.dataset` entries, and an allocation counter standing for
`createRenderer`'s production of brand-new instances. -/
structure ItemViewState where
  widget : Option Renderer
  datasetMimeType : Option String
  datasetOutputType : Option String
  rfresh : Nat
deriving DecidableEq, Repr

/-- The outcome of one run of `OutputItemView._onRefreshRequest`: the new
view state, which renderer instance (if any) had `renderModel` called with
which model, which instance was freshly created, and which instance was
disposed.  Setting `SingletonLayout.widget` disposes the previous child when
it changes, and `layout.widget = null` disposes the existing child. -/
structure ItemRefreshResult where
  state : ItemViewState
  rendered : Option (Renderer × MimeModel)
  createdR : Option Renderer
  disposedR : Option Renderer
deriving DecidableEq, Repr

/-- One run of `OutputItemView._onRefreshRequest`.  `preferredMimeType` is
the rendermime registry's resolution function, called as
`rendermime.preferredMimeType(data, !trusted)`; the source coerces its
`undefined` result to `''`. -/
def itemRefresh (preferredMimeType : List (String × String) → Bool → Option String)
    (item : OutputItem) (trusted : Bool) (s : ItemViewState) : ItemRefreshResult :=
  let data := getData item
  let metadata := getMetadata item
  let model : MimeModel := ⟨trusted, data, metadata⟩
  let mimeType := (preferredMimeType data (!trusted)).getD ""
  let oldMimeType := s.datasetMimeType
  let s1 : ItemViewState :=
    { s with datasetMimeType := some mimeType, datasetOutputType := some item.type }
  match s.widget with
  | some renderer =>
      if oldMimeType = some mimeType then
        ⟨s1, some (renderer, model), none, none⟩
      else if mimeType = "" then
        ⟨{ s1 with widget := none }, none, none, some renderer⟩
      else
        let rNew : Renderer := ⟨s1.rfresh, mimeType⟩
        ⟨{ s1 with widget := some rNew, rfresh := s1.rfresh + 1 },
          some (rNew, model), some rNew, some renderer⟩
  | none =>
      if mimeType = "" then
        ⟨{ s1 with widget := none }, none, none, none⟩
      else
        let rNew : Renderer := ⟨s1.rfresh, mimeType⟩
        ⟨{ s1 with widget := some rNew, rfresh := s1.rfresh + 1 },
          some (rNew, model), some rNew, none⟩

/-- The state invariant of an `OutputItemView`: whenever a renderer child is
present, the recorded `dataset['mimeType']` is not the empty string (the
create branch only runs for a non-empty mime type, and the clear branch
removes the child). -/
def itemInvB (s : ItemViewState) : Bool :=
  s.widget.isNone || s.datasetMimeType != some ""

/-- The initial state of a freshly constructed `OutputItemView`: an empty
`SingletonLayout` and no dataset entries. -/
def initialItemViewState : ItemViewState := ⟨none, none, none, 0⟩

/-! ## Store-change handlers (`_onStoreChanged`) -/

/-- Lookup `table.get(id)` on an id-keyed lookup table. -/
def tableGet {α : Type} (table : List (String × α)) (id : String) : Option α :=
  match table with
  | [] => none
  | (k, v) :: rest => if id = k then some v else tableGet rest id

/-- Lookup of `store.state.outputAreaTable.get(areaId)` with the
`area || Private.emptyArea` fallback of `OutputAreaView._onStoreChanged`. -/
def resolveArea (state : OutputStoreState) (areaId : String) : OutputArea :=
  (tableGet state.outputAreaTable areaId).getD emptyArea

/-- Lookup of `store.state.outputItemTable.get(itemId)` with the
`item || Private.emptyItem` fallback of `OutputItemView._onStoreChanged`. -/
def resolveItem (state : OutputStoreState) (itemId : String) : OutputItem :=
  (tableGet state.outputItemTable itemId).getD emptyItem

/-- Handler `OutputAreaView._onStoreChanged`: resolve the area (with the
empty-area fallback), bail early when it equals the held `_area` reference,
otherwise update `_area` and schedule a refresh.  Returns the new `_area`
and whether a refresh was scheduled. -/
def areaStoreChanged (state : OutputStoreState) (areaId : String)
    (current : OutputArea) : OutputArea × Bool :=
  let area := resolveArea state areaId
  if current = area then (current, false) else (area, true)

/-- Handler `OutputItemView._onStoreChanged`, in the same shape as
`areaStoreChanged`. -/
def itemStoreChanged (state : OutputStoreState) (itemId : String)
    (current : OutputItem) : OutputItem × Bool :=
  let item := resolveItem state itemId
  if current = item then (current, false) else (item, true)

/-- A turn's worth of synchronous `changed` notifications delivered to one
`OutputAreaView`: each dispatch produces a state snapshot and the handler
runs on each, updating the cached `_area`.  Returns the `_area` the
coalesced refresh will read. -/
def runAreaNotifications (snaps : List OutputStoreState) (areaId : String)
    (init : OutputArea) : OutputArea :=
  snaps.foldl (fun cache st => (areaStoreChanged st areaId cache).1) init

/-- A turn's worth of synchronous `changed` notifications delivered to one
`OutputItemView`. -/
def runItemNotifications (snaps : List OutputStoreState) (itemId : String)
    (init : OutputItem) : OutputItem :=
  snaps.foldl (fun cache st => (itemStoreChanged st itemId cache).1) init

/-! ## Refresh conflation (`Private.RefreshRequest` and the message loop)

Modelled from the spec: `MessageLoop.postMessage` from `@phosphor/messaging`
enqueues a posted message unless the message is conflatable and a pending
conflatable message of the same type is already queued for the same handler,
in which case the pending request supersedes the new one. -/

/-- A posted message: its `type` string and its conflatable flag. -/
structure Msg where
  msgType : String
  isConflatable : Bool
deriving DecidableEq, Repr

/-- Message `Private.RefreshRequest`, the singleton
`new ConflatableMessage('refresh-request')`. -/
def RefreshRequest : Msg := ⟨"refresh-request", true⟩

/-- Modelled from the spec: `MessageLoop.postMessage(handler, msg)` with
conflation.  Handlers (view nodes) are identified by `Nat`. -/
def postMessage (queue : List (Nat × Msg)) (h : Nat) (m : Msg) :
    List (Nat × Msg) :=
  if m.isConflatable &&
      queue.any (fun p =>
        decide (p.1 = h) && decide (p.2.msgType = m.msgType) && p.2.isConflatable)
  then queue
  else queue ++ [(h, m)]

/-- A turn's worth of `refresh()` calls: each element of `posts` is a view
node posting the singleton `RefreshRequest` to itself, starting from an
empty pending queue. -/
def postRefreshAll (posts : List Nat) : List (Nat × Msg) :=
  posts.foldl (fun q h => postMessage q h RefreshRequest) []

/-- The number of pending `'refresh-request'` deliveries for handler `h` —
each queue entry is delivered exactly once when the turn's queue is
processed, so this is the number of refresh executions for the node. -/
def pendingRefreshCount (queue : List (Nat × Msg)) (h : Nat) : Nat :=
  queue.countP (fun p => decide (p.1 = h) && decide (p.2.msgType = "refresh-request"))

/-! ## Mime bundle derivation (claim C3) -/

/-- Claim C3: for every Output Item, `getData` and `getMetadata` derive the
mime bundle and metadata bundle by kind — `execute_result` and
`display_data` pass `data`/`metadata` through unchanged; `stream` yields a
single-key bundle keyed by the stream name carrying its text, with empty
metadata; `error` yields a single-key bundle carrying the formatted
traceback text (the traceback when present, else `"<ename>: <evalue>"`),
with empty metadata; an unrecognized kind yields an empty bundle and empty
metadata. -/
theorem mime_bundle_derivation :
    (∀ (n : Int) (d md : List (String × String)),
        getData (.executeResult n d md) = d ∧ getMetadata (.executeResult n d md) = md) ∧
    (∀ d md, getData (.displayData d md) = d ∧ getMetadata (.displayData d md) = md) ∧
    (∀ name text,
        getData (.stream name text) = [("application/vnd.jupyter." ++ name, text)] ∧
        getMetadata (.stream name text) = []) ∧
    (∀ e v tb, tb ≠ "" →
        getData (.error e v tb) = [("application/vnd.jupyter.stderr", tb)]) ∧
    (∀ e v, getData (.error e v "") = [("application/vnd.jupyter.stderr", e ++ ": " ++ v)]) ∧
    (∀ e v tb, getMetadata (.error e v tb) = []) ∧
    getData .unrecognized = [] ∧ getMetadata .unrecognized = [] := by
  refine ⟨fun n d md => ⟨rfl, rfl⟩, fun d md => ⟨rfl, rfl⟩, fun name text => ⟨rfl, rfl⟩,
    fun e v tb h => ?_, fun e v => ?_, fun e v tb => rfl, rfl, rfl⟩
  · simp [getData, formatError, h]
  · simp [getData, formatError]

/-- Witness for claim C3 at a concrete error item with a nonempty
traceback. -/
theorem mime_bundle_derivation_witness :
    getData (.error "E" "boom" "tb0") = [("application/vnd.jupyter.stderr", "tb0")] :=
  mime_bundle_derivation.2.2.2.1 "E" "boom" "tb0" (by decide)

/-! ## Empty defaults on missing ids (claim C6) -/

/-- Claim C6: for every area id or item id absent from the store's lookup
tables, the change handlers resolve it to the well-defined empty default —
the empty Output Area, respectively the empty display-data Output Item —
rather than a null value. -/
theorem missing_id_resolves_to_empty_default (state : OutputStoreState)
    (areaId itemId : String)
    (ha : tableGet state.outputAreaTable areaId = none)
    (hi : tableGet state.outputItemTable itemId = none) :
    resolveArea state areaId = emptyArea ∧
    resolveItem state itemId = emptyItem ∧
    emptyArea.outputItemIds = [] ∧
    emptyItem = OutputItem.displayData [] [] := by
  refine ⟨?_, ?_, rfl, rfl⟩
  · simp [resolveArea, ha]
  · simp [resolveItem, hi]

/-- Witness for claim C6 at a concrete store with one area and one item,
queried with unknown ids. -/
theorem missing_id_resolves_to_empty_default_witness :
    resolveArea ⟨[("a1", ⟨true, ["i1"], false⟩)], [("i1", .stream "stdout" "hi")]⟩ "a2" =
      emptyArea ∧
    resolveItem ⟨[("a1", ⟨true, ["i1"], false⟩)], [("i1", .stream "stdout" "hi")]⟩ "i2" =
      emptyItem ∧
    emptyArea.outputItemIds = [] ∧
    emptyItem = OutputItem.displayData [] [] :=
  missing_id_resolves_to_empty_default
    ⟨[("a1", ⟨true, ["i1"], false⟩)], [("i1", .stream "stdout" "hi")]⟩ "a2" "i2"
    (by decide) (by decide)

/-! ## Reference-equality change detection (claim C9) -/

/-- Claim C9: a store-change handler bails out without scheduling a refresh
exactly when the looked-up value equals (by the reference identity of the
immutable snapshot values) the value the subscriber already holds, and a
refresh is scheduled exactly when it differs. -/
theorem change_detection_by_identity (state : OutputStoreState)
    (areaId itemId : String) (curArea : OutputArea) (curItem : OutputItem) :
    ((areaStoreChanged state areaId curArea).2 = false ↔
        resolveArea state areaId = curArea) ∧
    ((itemStoreChanged state itemId curItem).2 = false ↔
        resolveItem state itemId = curItem) := by
  constructor
  · by_cases h : curArea = resolveArea state areaId <;> simp [areaStoreChanged, h, eq_comm]
  · by_cases h : curItem = resolveItem state itemId <;> simp [itemStoreChanged, h, eq_comm]

/-! ## Coalesced refresh reads the latest snapshot (claim C8) -/

/-- The `_onStoreChanged` handler always leaves the cached `_area` equal to
the area resolved from the snapshot it was notified with. -/
theorem areaStoreChanged_fst (state : OutputStoreState) (areaId : String)
    (current : OutputArea) :
    (areaStoreChanged state areaId current).1 = resolveArea state areaId := by
  by_cases h : current = resolveArea state areaId <;> simp [areaStoreChanged, h]

/-- The `_onStoreChanged` handler always leaves the cached `_item` equal to
the item resolved from the snapshot it was notified with. -/
theorem itemStoreChanged_fst (state : OutputStoreState) (itemId : String)
    (current : OutputItem) :
    (itemStoreChanged state itemId current).1 = resolveItem state itemId := by
  by_cases h : current = resolveItem state itemId <;> simp [itemStoreChanged, h]

/-- Claim C8: for every sequence of dispatches within one turn, the area
(respectively item) value read at refresh time equals the value resolved
from the last state snapshot of the turn — never a stale value captured at
dispatch time. -/
theorem refresh_reads_latest_snapshot (snaps : List OutputStoreState)
    (last : OutputStoreState) (areaId itemId : String)
    (initArea : OutputArea) (initItem : OutputItem) :
    runAreaNotifications (snaps ++ [last]) areaId initArea = resolveArea last areaId ∧
    runItemNotifications (snaps ++ [last]) itemId initItem = resolveItem last itemId := by
  constructor
  · simp [runAreaNotifications, List.foldl_append, areaStoreChanged_fst]
  · simp [runItemNotifications, List.foldl_append, itemStoreChanged_fst]

/-! ## Renderer reuse and replacement (claims C4, C5) -/

/-- Claim C4: on an item refresh, when a renderer instance exists and its
recorded mime type equals the newly preferred one, that same instance is
updated in place with the new model — nothing is created or disposed; when
a non-empty preferred mime type differs from the recorded one, a fresh
renderer bound to the new mime type replaces the old instance (which is
disposed by the `SingletonLayout.widget` setter) and renders the model. -/
theorem renderer_reuse_and_replacement
    (preferredMimeType : List (String × String) → Bool → Option String)
    (item : OutputItem) (trusted : Bool) (s : ItemViewState) (r : Renderer)
    (m : String) (hw : s.widget = some r) :
    (s.datasetMimeType = some ((preferredMimeType (getData item) (!trusted)).getD "") →
      (itemRefresh preferredMimeType item trusted s).state.widget = some r ∧
      (itemRefresh preferredMimeType item trusted s).rendered =
        some (r, ⟨trusted, getData item, getMetadata item⟩) ∧
      (itemRefresh preferredMimeType item trusted s).createdR = none ∧
      (itemRefresh preferredMimeType item trusted s).disposedR = none) ∧
    (preferredMimeType (getData item) (!trusted) = some m → m ≠ "" →
      s.datasetMimeType ≠ some m →
      (itemRefresh preferredMimeType item trusted s).createdR = some ⟨s.rfresh, m⟩ ∧
      (itemRefresh preferredMimeType item trusted s).state.widget = some ⟨s.rfresh, m⟩ ∧
      (itemRefresh preferredMimeType item trusted s).disposedR = some r ∧
      (itemRefresh preferredMimeType item trusted s).rendered =
        some (⟨s.rfresh, m⟩, ⟨trusted, getData item, getMetadata item⟩)) := by
  constructor
  · intro hmime
    simp [itemRefresh, hw, hmime]
  · intro hpref hne hdiff
    have hmime : (preferredMimeType (getData item) (!trusted)).getD "" = m := by
      simp [hpref]
    simp [itemRefresh, hw, hmime, hdiff, hne]

/-- Witness for claim C4 at a concrete stream item, registry and view
state: the held renderer for `"text/plain"` is reused when the preferred
mime type is again `"text/plain"`. -/
theorem renderer_reuse_and_replacement_witness :
    ((⟨some ⟨7, "text/plain"⟩, some "text/plain", some "stream", 8⟩ :
        ItemViewState).datasetMimeType =
      some (((fun _ _ => some "text/plain") (getData (.stream "stdout" "hi")) (!true)).getD "") →
      (itemRefresh (fun _ _ => some "text/plain") (.stream "stdout" "hi") true
          ⟨some ⟨7, "text/plain"⟩, some "text/plain", some "stream", 8⟩).state.widget =
        some ⟨7, "text/plain"⟩ ∧
      (itemRefresh (fun _ _ => some "text/plain") (.stream "stdout" "hi") true
          ⟨some ⟨7, "text/plain"⟩, some "text/plain", some "stream", 8⟩).rendered =
        some (⟨7, "text/plain"⟩,
          ⟨true, getData (.stream "stdout" "hi"), getMetadata (.stream "stdout" "hi")⟩) ∧
      (itemRefresh (fun _ _ => some "text/plain") (.stream "stdout" "hi") true
          ⟨some ⟨7, "text/plain"⟩, some "text/plain", some "stream", 8⟩).createdR = none ∧
      (itemRefresh (fun _ _ => some "text/plain") (.stream "stdout" "hi") true
          ⟨some ⟨7, "text/plain"⟩, some "text/plain", some "stream", 8⟩).disposedR = none) ∧
    ((fun (_ : List (String × String)) (_ : Bool) => some "text/plain")
        (getData (.stream "stdout" "hi")) (!true) = some "text/html" → "text/html" ≠ "" →
      (⟨some ⟨7, "text/plain"⟩, some "text/plain", some "stream", 8⟩ :
        ItemViewState).datasetMimeType ≠ some "text/html" →
      (itemRefresh (fun _ _ => some "text/plain") (.stream "stdout" "hi") true
          ⟨some ⟨7, "text/plain"⟩, some "text/plain", some "stream", 8⟩).createdR =
        some ⟨8, "text/html"⟩ ∧
      (itemRefresh (fun _ _ => some "text/plain") (.stream "stdout" "hi") true
          ⟨some ⟨7, "text/plain"⟩, some "text/plain", some "stream", 8⟩).state.widget =
        some ⟨8, "text/html"⟩ ∧
      (itemRefresh (fun _ _ => some "text/plain") (.stream "stdout" "hi") true
          ⟨some ⟨7, "text/plain"⟩, some "text/plain", some "stream", 8⟩).disposedR =
        some ⟨7, "text/plain"⟩ ∧
      (itemRefresh (fun _ _ => some "text/plain") (.stream "stdout" "hi") true
          ⟨some ⟨7, "text/plain"⟩, some "text/plain", some "stream", 8⟩).rendered =
        some (⟨8, "text/html"⟩,
          ⟨true, getData (.stream "stdout" "hi"), getMetadata (.stream "stdout" "hi")⟩)) :=
  renderer_reuse_and_replacement (fun _ _ => some "text/plain") (.stream "stdout" "hi")
    true ⟨some ⟨7, "text/plain"⟩, some "text/plain", some "stream", 8⟩
    ⟨7, "text/plain"⟩ "text/html" rfl

/-- The item-view invariant holds for a freshly constructed view. -/
theorem itemInvB_initial : itemInvB initialItemViewState = true := rfl

/-- Every run of the item refresh handler preserves the item-view
invariant, so the invariant holds in every reachable view state. -/
theorem itemRefresh_preserves_itemInvB
    (preferredMimeType : List (String × String) → Bool → Option String)
    (item : OutputItem) (trusted : Bool) (s : ItemViewState)
    (h : itemInvB s = true) :
    itemInvB (itemRefresh preferredMimeType item trusted s).state = true := by
  rcases hw : s.widget with _ | r
  · by_cases hm : (preferredMimeType (getData item) (!trusted)).getD "" = ""
    · simp [itemRefresh, hw, hm, itemInvB]
    · simp [itemRefresh, hw, hm, itemInvB, Ne.symm hm]
  · have hds : s.datasetMimeType ≠ some "" := by
      simp [itemInvB, hw] at h
      simpa using h
    by_cases heq : s.datasetMimeType = some ((preferredMimeType (getData item) (!trusted)).getD "")
    · have hne : (preferredMimeType (getData item) (!trusted)).getD "" ≠ "" := by
        intro hc
        exact hds (by rw [heq, hc])
      simp [itemRefresh, hw, heq, itemInvB, hne]
    · by_cases hm : (preferredMimeType (getData item) (!trusted)).getD "" = ""
      · simp [itemRefresh, hw, heq, hm, hds, itemInvB]
      · simp [itemRefresh, hw, heq, hm, itemInvB]

/-- Claim C5: on an item refresh where the registry resolves no preferred
mime type, the view state ends with no renderer child — any existing
renderer instance is disposed by the layout clear — nothing is rendered and
no renderer is created.  The hypothesis `itemInvB s = true` is the
reachable-state invariant established by `itemInvB_initial` and
`itemRefresh_preserves_itemInvB`. -/
theorem no_mime_type_presents_nothing
    (preferredMimeType : List (String × String) → Bool → Option String)
    (item : OutputItem) (trusted : Bool) (s : ItemViewState)
    (hpref : preferredMimeType (getData item) (!trusted) = none)
    (hinv : itemInvB s = true) :
    (itemRefresh preferredMimeType item trusted s).state.widget = none ∧
    (itemRefresh preferredMimeType item trusted s).createdR = none ∧
    (itemRefresh preferredMimeType item trusted s).rendered = none ∧
    (itemRefresh preferredMimeType item trusted s).disposedR = s.widget := by
  rcases hw : s.widget with _ | r
  · simp [itemRefresh, hw, hpref]
  · have hds : s.datasetMimeType ≠ some "" := by
      simp [itemInvB, hw] at hinv
      simpa using hinv
    simp [itemRefresh, hw, hpref, hds]

/-- Witness for claim C5 at a concrete view state holding a renderer, with
a registry that resolves nothing: the renderer is disposed and the layout
cleared. -/
theorem no_mime_type_presents_nothing_witness :
    (itemRefresh (fun _ _ => none) .unrecognized false
        ⟨some ⟨3, "text/plain"⟩, some "text/plain", some "stream", 4⟩).state.widget = none ∧
    (itemRefresh (fun _ _ => none) .unrecognized false
        ⟨some ⟨3, "text/plain"⟩, some "text/plain", some "stream", 4⟩).createdR = none ∧
    (itemRefresh (fun _ _ => none) .unrecognized false
        ⟨some ⟨3, "text/plain"⟩, some "text/plain", some "stream", 4⟩).rendered = none ∧
    (itemRefresh (fun _ _ => none) .unrecognized false
        ⟨some ⟨3, "text/plain"⟩, some "text/plain", some "stream", 4⟩).disposedR =
      (⟨some ⟨3, "text/plain"⟩, some "text/plain", some "stream", 4⟩ :
        ItemViewState).widget :=
  no_mime_type_presents_nothing (fun _ _ => none) .unrecognized false
    ⟨some ⟨3, "text/plain"⟩, some "text/plain", some "stream", 4⟩ rfl (by decide)

/-! ## Refresh conflation (claim C7) -/

/-- Posting the singleton `RefreshRequest` through the conflating message
loop: starting from any queue holding only `RefreshRequest` entries with at
most one pending entry per handler, a sequence of posts leaves exactly one
pending entry for every handler that posted and leaves the other handlers'
counts unchanged. -/
theorem postRefresh_foldl_count (posts : List Nat) :
    ∀ (q : List (Nat × Msg)),
      (∀ p ∈ q, p.2 = RefreshRequest) →
      (∀ h2, pendingRefreshCount q h2 ≤ 1) →
      (∀ p ∈ posts.foldl (fun q2 h2 => postMessage q2 h2 RefreshRequest) q,
          p.2 = RefreshRequest) ∧
      ∀ h2, pendingRefreshCount
          (posts.foldl (fun q2 h2 => postMessage q2 h2 RefreshRequest) q) h2 =
        if h2 ∈ posts then 1 else pendingRefreshCount q h2 := by
  induction posts with
  | nil => intro q hall hle; simpa using hall
  | cons h0 rest ih =>
    intro q hall hle
    have hcount : ∀ h2,
        q.any (fun p =>
          decide (p.1 = h2) && decide (p.2.msgType = "refresh-request") &&
            p.2.isConflatable) = true ↔
        0 < pendingRefreshCount q h2 := by
      intro h2
      rw [List.any_eq_true]
      unfold pendingRefreshCount
      rw [List.countP_pos_iff]
      constructor
      · rintro ⟨p, hp, hpred⟩
        refine ⟨p, hp, ?_⟩
        have := hall p hp
        simp [this, RefreshRequest] at hpred ⊢
        exact hpred
      · rintro ⟨p, hp, hpred⟩
        refine ⟨p, hp, ?_⟩
        have := hall p hp
        simp [this, RefreshRequest] at hpred ⊢
        exact hpred
    by_cases hc :
        q.any (fun p =>
          decide (p.1 = h0) && decide (p.2.msgType = "refresh-request") &&
            p.2.isConflatable) = true
    · have hq : postMessage q h0 RefreshRequest = q := by
        simp only [postMessage, RefreshRequest] at hc ⊢
        simp [hc]
      have h1 : pendingRefreshCount q h0 = 1 :=
        Nat.le_antisymm (hle h0) ((hcount h0).mp hc)
      have := ih q hall hle
      refine ⟨by simpa [hq] using this.1, fun h2 => ?_⟩
      rw [List.foldl_cons, hq, this.2 h2]
      by_cases hmem : h2 ∈ rest
      · simp [hmem]
      · by_cases heq : h2 = h0
        · subst heq
          simp [hmem, h1]
        · simp [hmem, heq]
    · have hq : postMessage q h0 RefreshRequest = q ++ [(h0, RefreshRequest)] := by
        simp only [postMessage, RefreshRequest] at hc ⊢
        simp [hc]
      have hzero : pendingRefreshCount q h0 = 0 := by
        by_contra hnz
        exact hc ((hcount h0).mpr (Nat.pos_of_ne_zero hnz))
      have hall2 : ∀ p ∈ q ++ [(h0, RefreshRequest)], p.2 = RefreshRequest := by
        intro p hp
        rcases List.mem_append.mp hp with hp | hp
        · exact hall p hp
        · simp at hp; simp [hp]
      have hcnt2 : ∀ h2, pendingRefreshCount (q ++ [(h0, RefreshRequest)]) h2 =
          pendingRefreshCount q h2 + if h2 = h0 then 1 else 0 := by
        intro h2
        unfold pendingRefreshCount
        rw [List.countP_append]
        by_cases heq : h2 = h0 <;> simp [heq, RefreshRequest, eq_comm]
      have hle2 : ∀ h2, pendingRefreshCount (q ++ [(h0, RefreshRequest)]) h2 ≤ 1 := by
        intro h2
        rw [hcnt2 h2]
        by_cases heq : h2 = h0
        · simp [heq, hzero]
        · simp [heq]
          exact hle h2
      have := ih (q ++ [(h0, RefreshRequest)]) hall2 hle2
      refine ⟨by simpa [hq] using this.1, fun h2 => ?_⟩
      rw [List.foldl_cons, hq, this.2 h2, hcnt2 h2]
      by_cases hmem : h2 ∈ rest
      · simp [hmem]
      · by_cases heq : h2 = h0
        · subst heq
          simp [hmem, hzero]
        · simp [hmem, heq]

/-- Claim C7: any number of `refresh()` posts for view nodes within one
scheduling turn collapse to exactly one pending (hence one executed)
refresh per node that posted, and zero for any node that did not — a
pending `RefreshRequest` for a node supersedes an earlier pending one
instead of queuing a second. -/
theorem refresh_conflation_once_per_node (posts : List Nat) (h : Nat) :
    pendingRefreshCount (postRefreshAll posts) h = if h ∈ posts then 1 else 0 := by
  have := postRefresh_foldl_count posts [] (by simp)
    (by intro h2; simp [pendingRefreshCount])
  rw [postRefreshAll, this.2 h]
  by_cases hmem : h ∈ posts <;> simp [hmem, pendingRefreshCount]

/-! ## Reconciler: facts about tags, map entries and the JS-object map -/

/-- Tags of a cons with an untagged head. -/
theorem tagsOf_cons_none {w : Widget} (ws : List Widget) (h : w.tag = none) :
    tagsOf (w :: ws) = tagsOf ws := by
  simp [tagsOf, List.filterMap_cons, h]

/-- Tags of a cons with a tagged head. -/
theorem tagsOf_cons_some {w : Widget} {t : String} (ws : List Widget)
    (h : w.tag = some t) : tagsOf (w :: ws) = t :: tagsOf ws := by
  simp [tagsOf, List.filterMap_cons, h]

/-- Tags distribute over append. -/
theorem tagsOf_append (l1 l2 : List Widget) :
    tagsOf (l1 ++ l2) = tagsOf l1 ++ tagsOf l2 :=
  List.filterMap_append l1 l2 Widget.tag

/-- A list of non-item widgets contributes no tags. -/
theorem tagsOf_eq_nil_of_untagged {l : List Widget} (h : ∀ w ∈ l, w.tag = none) :
    tagsOf l = [] := by
  induction l with
  | nil => rfl
  | cons w ws ih =>
    rw [tagsOf_cons_none ws (h w (List.mem_cons_self w ws))]
    exact ih fun x hx => h x (List.mem_cons_of_mem w hx)

/-- A tagged member contributes its tag. -/
theorem tag_mem_tagsOf {l : List Widget} {w : Widget} {t : String}
    (hw : w ∈ l) (ht : w.tag = some t) : t ∈ tagsOf l :=
  List.mem_filterMap.mpr ⟨w, hw, ht⟩

/-- The tail of a tag-distinct list is tag-distinct. -/
theorem tagsOf_nodup_tail {x : Widget} {xs : List Widget}
    (h : (tagsOf (x :: xs)).Nodup) : (tagsOf xs).Nodup := by
  rcases ht : x.tag with _ | t
  · rwa [tagsOf_cons_none xs ht] at h
  · rw [tagsOf_cons_some xs ht] at h
    exact h.of_cons

/-- In a tag-distinct widget list, a tag determines the widget. -/
theorem tag_unique {l : List Widget} (htags : (tagsOf l).Nodup) :
    ∀ {w w2 : Widget} {t : String}, w ∈ l → w2 ∈ l →
      w.tag = some t → w2.tag = some t → w = w2 := by
  induction l with
  | nil => intro w w2 t hw _ _ _; cases hw
  | cons x xs ih =>
    intro w w2 t hw hw2 ht ht2
    rcases List.mem_cons.mp hw with hw | hw
    · rcases List.mem_cons.mp hw2 with hw2 | hw2
      · rw [hw, hw2]
      · exfalso
        have h1 : t ∈ tagsOf xs := tag_mem_tagsOf hw2 ht2
        have hx : x.tag = some t := by rw [← hw]; exact ht
        rw [tagsOf_cons_some xs hx] at htags
        exact htags.not_mem h1
    · rcases List.mem_cons.mp hw2 with hw2 | hw2
      · exfalso
        have h1 : t ∈ tagsOf xs := tag_mem_tagsOf hw ht
        have hx : x.tag = some t := by rw [← hw2]; exact ht2
        rw [tagsOf_cons_some xs hx] at htags
        exact htags.not_mem h1
      · exact ih (tagsOf_nodup_tail htags) hw hw2 ht ht2

/-- Entries of a cons with an untagged head. -/
theorem entriesOf_cons_none {w : Widget} (ws : List Widget) (h : w.tag = none) :
    entriesOf (w :: ws) = entriesOf ws := by
  simp [entriesOf, List.filterMap_cons, h]

/-- Entries of a cons with a tagged head. -/
theorem entriesOf_cons_some {w : Widget} {t : String} (ws : List Widget)
    (h : w.tag = some t) : entriesOf (w :: ws) = (t, w) :: entriesOf ws := by
  simp [entriesOf, List.filterMap_cons, h]

/-- Entries distribute over append. -/
theorem entriesOf_append (l1 l2 : List Widget) :
    entriesOf (l1 ++ l2) = entriesOf l1 ++ entriesOf l2 :=
  List.filterMap_append l1 l2 _

/-- A list of non-item widgets contributes no entries. -/
theorem entriesOf_eq_nil_of_untagged {l : List Widget} (h : ∀ w ∈ l, w.tag = none) :
    entriesOf l = [] := by
  induction l with
  | nil => rfl
  | cons w ws ih =>
    rw [entriesOf_cons_none ws (h w (List.mem_cons_self w ws))]
    exact ih fun x hx => h x (List.mem_cons_of_mem w hx)

/-- Every entry of the id map carries a widget tagged with its key. -/
theorem entriesOf_coherent {l : List Widget} {p : String × Widget}
    (hp : p ∈ entriesOf l) : p.2.tag = some p.1 ∧ p.2 ∈ l := by
  rcases List.mem_filterMap.mp hp with ⟨w, hw, he⟩
  rcases ht : w.tag with _ | t <;> rw [ht] at he
  · cases he
  · cases he
    exact ⟨ht, hw⟩

/-- Membership among the values of the id map is membership as a tagged
widget. -/
theorem mem_values_entriesOf {l : List Widget} {w : Widget} :
    w ∈ (entriesOf l).map Prod.snd ↔ w ∈ l ∧ w.tag ≠ none := by
  constructor
  · intro h
    rcases List.mem_map.mp h with ⟨p, hp, he⟩
    rcases entriesOf_coherent hp with ⟨ht, hm⟩
    subst he
    exact ⟨hm, by simp [ht]⟩
  · rintro ⟨hm, ht⟩
    rcases Option.ne_none_iff_exists'.mp ht with ⟨t, ht⟩
    exact List.mem_map.mpr ⟨(t, w), List.mem_filterMap.mpr ⟨w, hm, by simp [ht]⟩, rfl⟩

/-- A successful map lookup among the entries returns a member tagged with
the key. -/
theorem mapLookup_entriesOf_some {id : String} :
    ∀ {l : List Widget} {w0 : Widget},
      mapLookup id (entriesOf l) = some w0 → w0 ∈ l ∧ w0.tag = some id := by
  intro l
  induction l with
  | nil => intro w0 h; cases h
  | cons x xs ih =>
    intro w0 h
    rcases ht : x.tag with _ | t
    · rw [entriesOf_cons_none xs ht] at h
      rcases ih h with ⟨hm, htag⟩
      exact ⟨List.mem_cons_of_mem x hm, htag⟩
    · rw [entriesOf_cons_some xs ht] at h
      by_cases he : id = t
      · rw [mapLookup, if_pos he] at h
        cases h
        exact ⟨List.mem_cons_self x xs, by rw [ht, he]⟩
      · rw [mapLookup, if_neg he] at h
        rcases ih h with ⟨hm, htag⟩
        exact ⟨List.mem_cons_of_mem x hm, htag⟩

/-- A failed map lookup among the entries means no member carries the key
as its tag. -/
theorem mapLookup_entriesOf_none {id : String} :
    ∀ {l : List Widget}, mapLookup id (entriesOf l) = none →
      ∀ w ∈ l, w.tag ≠ some id := by
  intro l
  induction l with
  | nil => intro _ w hw; cases hw
  | cons x xs ih =>
    intro h w hw
    rcases ht : x.tag with _ | t
    · rw [entriesOf_cons_none xs ht] at h
      rcases List.mem_cons.mp hw with hw | hw
      · subst hw; simp [ht]
      · exact ih h w hw
    · rw [entriesOf_cons_some xs ht] at h
      by_cases he : id = t
      · rw [mapLookup, if_pos he] at h; cases h
      · rw [mapLookup, if_neg he] at h
        rcases List.mem_cons.mp hw with hw | hw
        · subst hw
          rw [ht]
          intro hc
          exact he (by cases hc; rfl)
        · exact ih h w hw

/-- Deleting a key from the entry map drops exactly the widgets tagged with
that key. -/
theorem mapDelete_entriesOf (id : String) :
    ∀ l : List Widget, mapDelete id (entriesOf l) =
      entriesOf (l.filter fun w => decide (w.tag ≠ some id)) := by
  intro l
  induction l with
  | nil => rfl
  | cons x xs ih =>
    rcases ht : x.tag with _ | t
    · rw [entriesOf_cons_none xs ht, ih, List.filter_cons,
        if_pos (show (decide (x.tag ≠ some id)) = true by simp [ht]),
        entriesOf_cons_none _ ht]
    · rw [entriesOf_cons_some xs ht]
      unfold mapDelete
      rw [List.filter_cons, List.filter_cons]
      by_cases he : t = id
      · subst he
        rw [if_neg (by simp), if_neg (by simp [ht])]
        exact ih
      · rw [if_pos (by simp [he]), if_pos (by simp [ht, he]),
          entriesOf_cons_some _ ht]
        exact congrArg (List.cons (t, x)) ih

/-! ## Reconciler: positional facts about the layout child list -/

/-- A widget absent from the child list has no index. -/
theorem idxOf?_eq_none {v : Widget} : ∀ {l : List Widget}, v ∉ l → idxOf? v l = none := by
  intro l
  induction l with
  | nil => intro _; rfl
  | cons x xs ih =>
    intro h
    rw [idxOf?, if_neg (fun hc => h (List.mem_cons.mpr (Or.inl hc.symm))),
      ih (fun hc => h (List.mem_cons_of_mem x hc))]
    rfl

/-- A member widget has an index, and it is in bounds. -/
theorem idxOf?_of_mem {v : Widget} : ∀ {l : List Widget}, v ∈ l →
    ∃ ci, idxOf? v l = some ci ∧ ci < l.length := by
  intro l
  induction l with
  | nil => intro h; cases h
  | cons x xs ih =>
    intro h
    by_cases hx : x = v
    · exact ⟨0, by rw [idxOf?, if_pos hx], Nat.succ_pos _⟩
    · have hv : v ∈ xs := by
        rcases List.mem_cons.mp h with h2 | h2
        · exact absurd h2.symm hx
        · exact h2
      rcases ih hv with ⟨ci, hci, hlt⟩
      refine ⟨ci + 1, ?_, Nat.succ_lt_succ hlt⟩
      rw [idxOf?, if_neg hx, hci]
      rfl

/-- The widget found at its own index. -/
theorem idxOf?_getElem {v : Widget} : ∀ {l : List Widget} {ci : Nat},
    idxOf? v l = some ci → l[ci]? = some v := by
  intro l
  induction l with
  | nil => intro ci h; cases h
  | cons x xs ih =>
    intro ci h
    by_cases hx : x = v
    · rw [idxOf?, if_pos hx] at h
      cases h
      simp [hx]
    · rw [idxOf?, if_neg hx] at h
      rcases hidx : idxOf? v xs with _ | ci2
      · rw [hidx] at h; cases h
      · rw [hidx, Option.map_some'] at h
        cases h
        simpa using ih hidx

/-- The index of a widget that sits past an alien block. -/
theorem idxOf?_append {v : Widget} : ∀ (done : List Widget) {rest : List Widget}
    {ci : Nat}, v ∉ done → idxOf? v rest = some ci →
    idxOf? v (done ++ rest) = some (done.length + ci) := by
  intro done
  induction done with
  | nil => intro rest ci _ h; simpa using h
  | cons d ds ih =>
    intro rest ci h hidx
    rw [List.cons_append, idxOf?,
      if_neg (fun hc => h (List.mem_cons.mpr (Or.inl hc.symm))),
      ih (fun hc => h (List.mem_cons_of_mem d hc)) hidx, Option.map_some']
    have : ds.length + ci + 1 = (d :: ds).length + ci := by
      simp [Nat.add_comm, Nat.add_assoc, Nat.add_left_comm]
    rw [this]

/-- Erasing at an index past an alien block. -/
theorem eraseIdx_append_block : ∀ (done rest : List Widget) (ci : Nat),
    (done ++ rest).eraseIdx (done.length + ci) = done ++ rest.eraseIdx ci := by
  intro done
  induction done with
  | nil => intro rest ci; simp
  | cons d ds ih =>
    intro rest ci
    have h1 : (d :: ds).length + ci = (ds.length + ci) + 1 := by
      simp [Nat.add_comm, Nat.add_assoc, Nat.add_left_comm]
    rw [h1, List.cons_append, List.eraseIdx_cons_succ, ih, List.cons_append]

/-- Inserting exactly at the boundary after a block. -/
theorem insertIdx_boundary : ∀ (done tail : List Widget) (v : Widget),
    (done ++ tail).insertIdx done.length v = done ++ v :: tail := by
  intro done
  induction done with
  | nil => intro tail v; rfl
  | cons d ds ih =>
    intro tail v
    rw [List.cons_append, List.length_cons, List.insertIdx_succ_cons, ih,
      List.cons_append]

/-- Reading exactly at the boundary after a block. -/
theorem getElem?_boundary : ∀ (done rest : List Widget),
    (done ++ rest)[done.length]? = rest.head? := by
  intro done
  induction done with
  | nil => intro rest; cases rest <;> simp
  | cons d ds ih =>
    intro rest
    rw [List.cons_append, List.length_cons, List.getElem?_cons_succ, ih]

/-- Erasing a tagged widget at its index equals filtering its tag out, when
tags are pairwise distinct. -/
theorem eraseIdx_idxOf_filter {id : String} :
    ∀ {l : List Widget} {w0 : Widget} {ci : Nat},
      idxOf? w0 l = some ci → w0.tag = some id → (tagsOf l).Nodup →
      l.eraseIdx ci = l.filter fun w => decide (w.tag ≠ some id) := by
  intro l
  induction l with
  | nil => intro w0 ci h _ _; cases h
  | cons x xs ih =>
    intro w0 ci hidx ht htags
    by_cases hx : x = w0
    · rw [idxOf?, if_pos hx] at hidx
      cases hidx
      have hxt : x.tag = some id := by rw [hx, ht]
      have hnone : ∀ w ∈ xs, w.tag ≠ some id := by
        intro w hw hc
        rw [tagsOf_cons_some xs hxt] at htags
        exact htags.not_mem (tag_mem_tagsOf hw hc)
      rw [show (x :: xs).eraseIdx 0 = xs from rfl, List.filter_cons,
        if_neg (by simp [hxt])]
      exact (List.filter_eq_self.mpr (fun w hw => by simp [hnone w hw])).symm
    · rw [idxOf?, if_neg hx] at hidx
      rcases hidx2 : idxOf? w0 xs with _ | ci2
      · rw [hidx2] at hidx; cases hidx
      · rw [hidx2, Option.map_some'] at hidx
        cases hidx
        have hw0 : w0 ∈ xs :=
          List.mem_iff_getElem?.mpr ⟨ci2, idxOf?_getElem hidx2⟩
        have hxt : x.tag ≠ some id := by
          intro hc
          rw [tagsOf_cons_some xs hc] at htags
          exact htags.not_mem (tag_mem_tagsOf hw0 ht)
        rw [List.eraseIdx_cons_succ, List.filter_cons, if_pos (by simp [hxt]),
          ih hidx2 ht (tagsOf_nodup_tail htags)]

/-- Inserting a brand-new widget at the boundary position appends it right
at that position. -/
theorem insertWidget_fresh {done rest : List Widget} {v : Widget}
    (h : v ∉ done ++ rest) :
    insertWidget (done ++ rest) done.length v = done ++ v :: rest := by
  rw [insertWidget, idxOf?_eq_none h]
  have hmin : min done.length (done ++ rest).length = done.length := by
    rw [List.length_append]
    exact Nat.min_eq_left (Nat.le_add_right _ _)
  rw [hmin, insertIdx_boundary]

/-- Moving the claimed widget `w0` to the boundary position: the block
before the boundary is untouched, `w0` lands at the boundary, and the
remaining widgets keep their order with `w0`'s old occurrence dropped. -/
theorem insertWidget_claim {done rest : List Widget} {w0 : Widget} {id : String}
    (h0 : w0 ∈ rest) (hnd : w0 ∉ done) (ht : w0.tag = some id)
    (htags : (tagsOf rest).Nodup) :
    insertWidget (done ++ rest) done.length w0 =
      done ++ w0 :: rest.filter fun w => decide (w.tag ≠ some id) := by
  rcases idxOf?_of_mem h0 with ⟨ci, hci, hlt⟩
  have hidx : idxOf? w0 (done ++ rest) = some (done.length + ci) :=
    idxOf?_append done hnd hci
  have hrest : rest.length ≠ 0 := by
    intro hc
    rw [List.length_eq_zero.mp hc] at h0
    cases h0
  have hmin : min done.length (done ++ rest).length = done.length := by
    rw [List.length_append]
    exact Nat.min_eq_left (Nat.le_add_right _ _)
  have hlen : done.length ≠ (done ++ rest).length := by
    rw [List.length_append]
    intro hc
    exact hrest (by omega)
  rw [insertWidget, hidx]
  simp only [hmin, if_neg hlen]
  by_cases hc0 : ci = 0
  · subst hc0
    rw [if_pos (Nat.add_zero _)]
    rcases rest with _ | ⟨x, xs⟩
    · cases h0
    · have hx : x = w0 := by
        have h2 := idxOf?_getElem hci
        simp at h2
        exact h2

      subst hx
      have hnone : ∀ w ∈ xs, w.tag ≠ some id := by
        intro w hw hc
        rw [tagsOf_cons_some xs ht] at htags
        exact htags.not_mem (tag_mem_tagsOf hw hc)
      rw [List.filter_cons, if_neg (by simp [ht]),
        List.filter_eq_self.mpr (fun w hw => by simp [hnone w hw])]
  · rw [if_neg (by omega)]
    rw [eraseIdx_append_block, insertIdx_boundary,
      eraseIdx_idxOf_filter hci ht htags]

/-- Every widget survives the reconciliation against the empty id list. -/
theorem keepB_nil (w : Widget) : keepB [] w = true := by
  rcases h : w.tag with _ | t <;> simp [keepB, h]

/-- Surviving one more id means surviving the rest and not carrying that
id. -/
theorem keepB_cons_iff {id : String} {ids : List String} {w : Widget} :
    keepB (id :: ids) w = true ↔ keepB ids w = true ∧ w.tag ≠ some id := by
  rcases h : w.tag with _ | t <;> simp [keepB, h]
  constructor
  · rintro ⟨h1, h2⟩
    exact ⟨h2, fun hc => h1 (by cases hc; rfl)⟩
  · rintro ⟨h1, h2⟩
    exact ⟨fun hc => h2 (by rw [hc]), h1⟩

/-- Specification of the synchronization loop: walking `ids` from the
boundary position `done.length` over the children `done ++ rest`, with the
id map holding exactly the entries of `rest`, the loop claims or creates
one view per id in order.  It ends with children `done ++ (mid ++ rest2)`
where `mid` carries exactly the tags `ids`, every claimed view is reused
from `rest`, every other view is brand new, and `rest2` is exactly the part
of `rest` whose tags do not occur in `ids` (plus the non-item widgets). -/
theorem syncLoop_spec (ids : List String) :
    ∀ (done rest : List Widget) (freshId : Nat) (created : List Widget)
      (inserts : Nat),
      (done ++ rest).Nodup →
      (tagsOf rest).Nodup →
      (∀ w ∈ done ++ rest, w.wid < freshId) →
      ∃ mid rest2 fresh2 created2 inserts2,
        syncLoop ids done.length
            ⟨done ++ rest, entriesOf rest, freshId, created, inserts⟩ =
          ⟨done ++ (mid ++ rest2), entriesOf rest2, fresh2, created2, inserts2⟩ ∧
        tagsOf mid = ids ∧
        mid.length = ids.length ∧
        (∀ w ∈ rest2, w ∈ rest ∧ keepB ids w = true) ∧
        (∀ w ∈ rest, keepB ids w = true → w ∈ rest2) ∧
        (∀ w ∈ rest, ∀ t, w.tag = some t → t ∈ ids → w ∈ mid) ∧
        (∀ w ∈ mid, w ∈ rest ∨ freshId ≤ w.wid) ∧
        (∀ w ∈ created2, w ∈ created ∨ freshId ≤ w.wid) ∧
        (done ++ (mid ++ rest2)).Nodup ∧
        freshId ≤ fresh2 := by
  induction ids with
  | nil =>
    intro done rest freshId created inserts hnd htags hfresh
    exact ⟨[], rest, freshId, created, inserts, rfl, rfl, rfl,
      fun w hw => ⟨hw, keepB_nil w⟩, fun w hw _ => hw,
      fun w _ t _ htmem => absurd htmem (List.not_mem_nil t),
      fun w hw => absurd hw (List.not_mem_nil w),
      fun w hw => Or.inl hw, by simpa using hnd, Nat.le_refl _⟩
  | cons id ids2 ih =>
    intro done rest freshId created inserts hnd htags hfresh
    rcases hlk : mapLookup id (entriesOf rest) with _ | w0
    · -- creation branch: no live view is tagged `id`
      have hnone : ∀ w ∈ rest, w.tag ≠ some id := mapLookup_entriesOf_none hlk
      have hnotmem : (⟨freshId, some id⟩ : Widget) ∉ done ++ rest := by
        intro hc
        have := hfresh _ hc
        simp at this
      have hguard : ¬ ((done ++ rest)[done.length]? =
          some (⟨freshId, some id⟩ : Widget)) := by
        rw [getElem?_boundary]
        rcases rest with _ | ⟨x, xs⟩
        · simp
        · simp only [List.head?_cons]
          intro hc
          have hx : x = ⟨freshId, some id⟩ := by injection hc
          have hxm : x ∈ done ++ x :: xs := by simp
          have := hfresh x hxm
          rw [hx] at this
          simp at this
      have hstep : syncStep done.length id
          ⟨done ++ rest, entriesOf rest, freshId, created, inserts⟩ =
          ⟨done ++ (⟨freshId, some id⟩ : Widget) :: rest, entriesOf rest,
            freshId + 1, created ++ [⟨freshId, some id⟩], inserts + 1⟩ := by
        simp only [syncStep, hlk]
        rw [if_neg hguard, insertWidget_fresh hnotmem]
      have h1 : (done ++ (⟨freshId, some id⟩ : Widget) :: rest).Nodup :=
        List.perm_middle.symm.nodup (List.nodup_cons.mpr ⟨hnotmem, hnd⟩)
      have hnd2 : ((done ++ [(⟨freshId, some id⟩ : Widget)]) ++ rest).Nodup := by
        rwa [← List.append_cons]
      have hfresh2 : ∀ w ∈ (done ++ [(⟨freshId, some id⟩ : Widget)]) ++ rest,
          w.wid < freshId + 1 := by
        intro w hw
        rw [← List.append_cons] at hw
        rcases (List.mem_append.mp hw) with hw | hw
        · exact Nat.lt_succ_of_lt (hfresh w (List.mem_append_left rest hw))
        · rcases List.mem_cons.mp hw with hw | hw
          · rw [hw]
            exact Nat.lt_succ_self freshId
          · exact Nat.lt_succ_of_lt (hfresh w (List.mem_append_right done hw))
      rcases ih (done ++ [⟨freshId, some id⟩]) rest (freshId + 1)
          (created ++ [⟨freshId, some id⟩]) (inserts + 1) hnd2 htags hfresh2 with
        ⟨mid', rest2, fresh2, created2, inserts2, heq, hmt, hml, hr2a, hr2b,
          hclaims, hmid, hcre, hndf, hf2⟩
      refine ⟨(⟨freshId, some id⟩ : Widget) :: mid', rest2, fresh2, created2,
        inserts2, ?_, ?_, ?_, ?_, ?_, ?_, ?_, ?_, ?_, ?_⟩
      · rw [syncLoop, hstep, List.append_cons,
          show done.length + 1 = (done ++ [(⟨freshId, some id⟩ : Widget)]).length
            by simp, heq]
        simp [List.append_assoc]
      · rw [tagsOf_cons_some mid' rfl, hmt]
      · simp [hml]
      · intro w hw
        obtain ⟨hwr, hkeep⟩ := hr2a w hw
        exact ⟨hwr, keepB_cons_iff.mpr ⟨hkeep, hnone w hwr⟩⟩
      · intro w hw hkeep
        exact hr2b w hw (keepB_cons_iff.mp hkeep).1
      · intro w hw t htag htmem
        rcases List.mem_cons.mp htmem with htmem | htmem
        · exact absurd (htmem ▸ htag) (hnone w hw)
        · exact List.mem_cons_of_mem _ (hclaims w hw t htag htmem)
      · intro w hw
        rcases List.mem_cons.mp hw with hw | hw
        · exact Or.inr (by rw [hw])
        · rcases hmid w hw with h | h
          · exact Or.inl h
          · exact Or.inr (Nat.le_of_succ_le h)
      · intro w hw
        rcases hcre w hw with h | h
        · rcases List.mem_append.mp h with h | h
          · exact Or.inl h
          · rcases List.mem_cons.mp h with h | h
            · exact Or.inr (by rw [h])
            · cases h
        · exact Or.inr (Nat.le_of_succ_le h)
      · rw [← List.append_cons] at hndf
        simpa using hndf
      · exact Nat.le_trans (Nat.le_succ _) hf2
    · -- claim branch: the live view `w0` is tagged `id`
      obtain ⟨hw0rest, hw0tag⟩ := mapLookup_entriesOf_some hlk
      have hw0notdone : w0 ∉ done :=
        fun hc => (List.nodup_append.mp hnd).2.2 hc hw0rest
      have hw0notrest2 : w0 ∉ rest.filter (fun w => decide (w.tag ≠ some id)) := by
        intro hc
        have := List.of_mem_filter hc
        rw [hw0tag] at this
        simp at this
      have hstep : ∃ ins2, syncStep done.length id
          ⟨done ++ rest, entriesOf rest, freshId, created, inserts⟩ =
          ⟨done ++ w0 :: (rest.filter fun w => decide (w.tag ≠ some id)),
            entriesOf (rest.filter fun w => decide (w.tag ≠ some id)),
            freshId, created, ins2⟩ := by
        by_cases hguard : (done ++ rest)[done.length]? = some w0
        · refine ⟨inserts, ?_⟩
          simp only [syncStep, hlk, mapDelete_entriesOf]
          rw [if_pos hguard]
          rw [getElem?_boundary] at hguard
          rcases rest with _ | ⟨x, xs⟩
          · cases hguard
          · have hx : x = w0 := by injection hguard
            subst hx
            have hnone2 : ∀ w ∈ xs, w.tag ≠ some id := by
              intro w hw hc
              rw [tagsOf_cons_some xs hw0tag] at htags
              exact htags.not_mem (tag_mem_tagsOf hw hc)
            rw [List.filter_cons, if_neg (by simp [hw0tag]),
              List.filter_eq_self.mpr (fun w hw => by simp [hnone2 w hw])]
        · refine ⟨inserts + 1, ?_⟩
          simp only [syncStep, hlk, mapDelete_entriesOf]
          rw [if_neg hguard, insertWidget_claim hw0rest hw0notdone hw0tag htags]
      rcases hstep with ⟨ins2, hstep⟩
      have htags2 : (tagsOf (rest.filter fun w => decide (w.tag ≠ some id))).Nodup :=
        htags.sublist ((List.filter_sublist rest).filterMap Widget.tag)
      have hndsub : (done ++ rest.filter (fun w => decide (w.tag ≠ some id))).Nodup :=
        hnd.sublist ((List.filter_sublist rest).append_left done)
      have hw0notmem : w0 ∉ done ++ rest.filter (fun w => decide (w.tag ≠ some id)) := by
        intro hc
        rcases List.mem_append.mp hc with hc | hc
        · exact hw0notdone hc
        · exact hw0notrest2 hc
      have h1 : (done ++ w0 :: rest.filter (fun w => decide (w.tag ≠ some id))).Nodup :=
        List.perm_middle.symm.nodup (List.nodup_cons.mpr ⟨hw0notmem, hndsub⟩)
      have hnd2 : ((done ++ [w0]) ++ rest.filter (fun w => decide (w.tag ≠ some id))).Nodup := by
        rwa [← List.append_cons]
      have hfresh2 : ∀ w ∈ (done ++ [w0]) ++
          rest.filter (fun w => decide (w.tag ≠ some id)), w.wid < freshId := by
        intro w hw
        rw [← List.append_cons] at hw
        rcases List.mem_append.mp hw with hw | hw
        · exact hfresh w (List.mem_append_left rest hw)
        · rcases List.mem_cons.mp hw with hw | hw
          · exact hw ▸ hfresh w0 (List.mem_append_right done hw0rest)
          · exact hfresh w
              (List.mem_append_right done (List.mem_of_mem_filter hw))
      rcases ih (done ++ [w0]) (rest.filter fun w => decide (w.tag ≠ some id))
          freshId created ins2 hnd2 htags2 hfresh2 with
        ⟨mid', rest2, fresh2, created2, inserts2, heq, hmt, hml, hr2a, hr2b,
          hclaims, hmid, hcre, hndf, hf2⟩
      refine ⟨w0 :: mid', rest2, fresh2, created2, inserts2,
        ?_, ?_, ?_, ?_, ?_, ?_, ?_, ?_, ?_, ?_⟩
      · rw [syncLoop, hstep, List.append_cons,
          show done.length + 1 = (done ++ [w0]).length by simp, heq]
        simp [List.append_assoc]
      · rw [tagsOf_cons_some mid' hw0tag, hmt]
      · simp [hml]
      · intro w hw
        obtain ⟨hwr, hkeep⟩ := hr2a w hw
        refine ⟨List.mem_of_mem_filter hwr, keepB_cons_iff.mpr ⟨hkeep, ?_⟩⟩
        have := List.of_mem_filter hwr
        exact of_decide_eq_true this
      · intro w hw hkeep
        obtain ⟨hkeep2, htagne⟩ := keepB_cons_iff.mp hkeep
        exact hr2b w (List.mem_filter.mpr ⟨hw, decide_eq_true htagne⟩) hkeep2
      · intro w hw t htag htmem
        by_cases hww : w = w0
        · rw [hww]
          exact List.mem_cons_self w0 mid'
        · rcases List.mem_cons.mp htmem with htid | htmem
          · exact absurd (tag_unique htags hw hw0rest (htid ▸ htag) hw0tag) hww
          · have hwr : w ∈ rest.filter fun w => decide (w.tag ≠ some id) := by
              refine List.mem_filter.mpr ⟨hw, decide_eq_true ?_⟩
              rw [htag]
              intro hc
              have ht2 : t = id := by injection hc
              exact hww (tag_unique htags hw hw0rest (ht2 ▸ htag) hw0tag)
            exact List.mem_cons_of_mem _ (hclaims w hwr t htag htmem)
      · intro w hw
        rcases List.mem_cons.mp hw with hw | hw
        · exact Or.inl (hw ▸ hw0rest)
        · rcases hmid w hw with h | h
          · exact Or.inl (List.mem_of_mem_filter h)
          · exact Or.inr h
      · exact hcre
      · rw [← List.append_cons] at hndf
        simpa using hndf
      · exact hf2

/-- Folding the id-map construction over a tag-distinct widget list, from
any accumulator whose keys avoid the coming tags, appends exactly the
entries in order. -/
theorem buildMap_go (ws : List Widget) :
    ∀ acc : List (String × Widget),
      (tagsOf ws).Nodup →
      (∀ p ∈ acc, ∀ t ∈ tagsOf ws, p.1 ≠ t) →
      ws.foldl (fun m w => match w.tag with | some t => mapInsert t w m | none => m)
          acc =
        acc ++ entriesOf ws := by
  induction ws with
  | nil => intro acc _ _; simp [entriesOf]
  | cons x xs ihw =>
    intro acc htags hkeys
    rcases ht : x.tag with _ | t
    · rw [List.foldl_cons]
      simp only [ht]
      rw [entriesOf_cons_none xs ht]
      exact ihw acc (by rwa [tagsOf_cons_none xs ht] at htags)
        (fun p hp t2 ht2 => hkeys p hp t2 (by rwa [tagsOf_cons_none xs ht]))
    · rw [List.foldl_cons]
      simp only [ht]
      have htmem : t ∈ tagsOf (x :: xs) := by
        rw [tagsOf_cons_some xs ht]
        exact List.mem_cons_self t _

      have hnokey : acc.any (fun p => decide (p.1 = t)) = false := by
        rw [List.any_eq_false]
        intro p hp
        simpa using hkeys p hp t htmem
      have hins : mapInsert t x acc = acc ++ [(t, x)] := by
        rw [mapInsert, if_neg (by simp [hnokey])]
      have htags2 : (tagsOf xs).Nodup := tagsOf_nodup_tail htags
      have htnotin : t ∉ tagsOf xs := by
        rw [tagsOf_cons_some xs ht] at htags
        exact htags.not_mem
      have hkeys2 : ∀ p ∈ acc ++ [(t, x)], ∀ t2 ∈ tagsOf xs, p.1 ≠ t2 := by
        intro p hp t2 ht2
        rcases List.mem_append.mp hp with hp | hp
        · refine hkeys p hp t2 ?_
          rw [tagsOf_cons_some xs ht]
          exact List.mem_cons_of_mem t ht2
        · rcases List.mem_cons.mp hp with hp | hp
          · subst hp
            intro hc
            simp only at hc
            exact htnotin (hc.symm ▸ ht2)
          · cases hp
      rw [hins, ihw (acc ++ [(t, x)]) htags2 hkeys2, entriesOf_cons_some xs ht,
        List.append_assoc]
      rfl

/-- Over a tag-distinct child list, the `itemIdMap` of the reconciler holds
exactly one entry per item view, in order. -/
theorem buildMap_eq_entriesOf {ws : List Widget} (htags : (tagsOf ws).Nodup) :
    buildMap ws = entriesOf ws := by
  have h := buildMap_go ws [] htags (fun p hp => absurd hp (List.not_mem_nil p))
  simpa [buildMap] using h

/-- Specification of one full reconciliation run over a plausible layout
state: children pairwise distinct, item views carrying pairwise distinct
ids, and the allocation counter fresh.  The run produces the item views for
`ids` in exactly that order followed by the surviving non-item widgets;
disposal hits exactly the item views whose id is gone; a view whose id is
retained survives as the same instance; created views are brand new. -/
theorem reconcile_spec (ids : List String) (ws : List Widget) (freshId : Nat)
    (hnd : ws.Nodup) (htags : (tagsOf ws).Nodup)
    (hfresh : ∀ w ∈ ws, w.wid < freshId) :
    ∃ mid strangers,
      (reconcile ids ws freshId).widgets = mid ++ strangers ∧
      tagsOf mid = ids ∧
      mid.length = ids.length ∧
      tagsOf (reconcile ids ws freshId).widgets = ids ∧
      (∀ w ∈ strangers, w.tag = none ∧ w ∈ ws) ∧
      (∀ w, w ∈ (reconcile ids ws freshId).disposed ↔
        w ∈ ws ∧ w.tag ≠ none ∧ keepB ids w = true) ∧
      (∀ w ∈ ws, ∀ t, w.tag = some t → t ∈ ids → w ∈ mid) ∧
      (∀ w ∈ (reconcile ids ws freshId).created, freshId ≤ w.wid) := by
  have hbm : buildMap ws = entriesOf ws := buildMap_eq_entriesOf htags
  rcases syncLoop_spec ids [] ws freshId [] 0 (by simpa using hnd) htags
      (by simpa using hfresh) with
    ⟨mid, rest2, fresh2, created2, inserts2, heq, hmt, hml, hr2a, hr2b, hclaims,
      hmid, hcre, hndf, hf2⟩
  simp only [List.nil_append, List.length_nil] at heq hndf
  have hrec : reconcile ids ws freshId =
      ⟨(mid ++ rest2).filter
          (fun w => decide (¬ w ∈ (entriesOf rest2).map Prod.snd)),
        created2, (entriesOf rest2).map Prod.snd, inserts2, fresh2⟩ := by
    rw [reconcile, hbm, heq]
  have hdisj : ∀ w ∈ mid, w ∉ rest2 :=
    fun w hw hc => (List.nodup_append.mp hndf).2.2 hw hc
  have hmidfilter : mid.filter
      (fun w => decide (¬ w ∈ (entriesOf rest2).map Prod.snd)) = mid := by
    refine List.filter_eq_self.mpr ?_
    intro w hw
    simp only [decide_eq_true_eq]
    intro hc
    exact hdisj w hw (mem_values_entriesOf.mp hc).1
  have hstr : ∀ w ∈ rest2.filter
      (fun w => decide (¬ w ∈ (entriesOf rest2).map Prod.snd)),
      w.tag = none ∧ w ∈ ws := by
    intro w hw
    have hwr : w ∈ rest2 := List.mem_of_mem_filter hw
    have hp := List.of_mem_filter hw
    simp only [decide_eq_true_eq] at hp
    constructor
    · by_contra hc
      exact hp (mem_values_entriesOf.mpr ⟨hwr, hc⟩)
    · exact (hr2a w hwr).1
  refine ⟨mid, rest2.filter
      (fun w => decide (¬ w ∈ (entriesOf rest2).map Prod.snd)),
    ?_, hmt, hml, ?_, hstr, ?_, ?_, ?_⟩
  · rw [hrec]
    show (mid ++ rest2).filter _ = _
    rw [List.filter_append, hmidfilter]
  · rw [hrec]
    show tagsOf ((mid ++ rest2).filter _) = ids
    rw [List.filter_append, hmidfilter, tagsOf_append,
      tagsOf_eq_nil_of_untagged (fun w hw => (hstr w hw).1), List.append_nil, hmt]
  · intro w
    rw [hrec]
    show w ∈ (entriesOf rest2).map Prod.snd ↔ _
    rw [mem_values_entriesOf]
    constructor
    · rintro ⟨hwr, htag⟩
      obtain ⟨hws, hkeep⟩ := hr2a w hwr
      exact ⟨hws, htag, hkeep⟩
    · rintro ⟨hws, htag, hkeep⟩
      exact ⟨hr2b w hws hkeep, htag⟩
  · exact hclaims
  · intro w hw
    rw [hrec] at hw
    rcases hcre w hw with h | h
    · cases h
    · exact h

/-- Walking `ids` from the boundary after `pre` over children
`pre ++ (mid ++ strangers)`, where `mid` carries exactly the distinct tags
`ids` and the map holds exactly `mid`'s entries, performs no operation at
all: every id is claimed, every claimed view is already in place, and the
map is drained. -/
theorem syncLoop_fixed (ids : List String) :
    ∀ (pre mid strangers : List Widget) (freshId : Nat) (created : List Widget)
      (inserts : Nat),
      tagsOf mid = ids → mid.length = ids.length → ids.Nodup →
      syncLoop ids pre.length
          ⟨pre ++ (mid ++ strangers), entriesOf mid, freshId, created, inserts⟩ =
        ⟨pre ++ (mid ++ strangers), [], freshId, created, inserts⟩ := by
  induction ids with
  | nil =>
    intro pre mid strangers freshId created inserts hmt hml _
    have hmid : mid = [] := List.length_eq_zero.mp (by rw [hml]; rfl)
    subst hmid
    rw [syncLoop]
    rfl
  | cons id ids2 ih =>
    intro pre mid strangers freshId created inserts hmt hml hids
    rcases mid with _ | ⟨m, mid2⟩
    · cases hml
    · have hm : m.tag = some id ∧ tagsOf mid2 = ids2 := by
        rcases ht : m.tag with _ | t
        · exfalso
          rw [tagsOf_cons_none mid2 ht] at hmt
          have hle := List.length_filterMap_le Widget.tag mid2
          rw [show List.filterMap Widget.tag mid2 = tagsOf mid2 from rfl, hmt] at hle
          simp at hml hle
          omega
        · rw [tagsOf_cons_some mid2 ht] at hmt
          injection hmt with h1 h2
          exact ⟨by rw [h1], h2⟩
      obtain ⟨hmtag, hmt2⟩ := hm
      have hml2 : mid2.length = ids2.length := by
        simpa using hml
      have hlk : mapLookup id (entriesOf (m :: mid2)) = some m := by
        rw [entriesOf_cons_some mid2 hmtag, mapLookup, if_pos rfl]
      have hdel : mapDelete id (entriesOf (m :: mid2)) = entriesOf mid2 := by
        rw [entriesOf_cons_some mid2 hmtag, mapDelete, List.filter_cons,
          if_neg (by simp)]
        refine List.filter_eq_self.mpr ?_
        intro p hp
        have hkey : p.1 ∈ tagsOf mid2 := by
          rcases entriesOf_coherent hp with ⟨hpt, hpm⟩
          exact tag_mem_tagsOf hpm hpt
        rw [hmt2] at hkey
        have hne : p.1 ≠ id := fun hc => (List.nodup_cons.mp hids).1 (hc ▸ hkey)
        simpa using hne
      have hguard : (pre ++ ((m :: mid2) ++ strangers))[pre.length]? = some m := by
        rw [List.cons_append, getElem?_boundary]
        rfl
      have hstep : syncStep pre.length id
          ⟨pre ++ ((m :: mid2) ++ strangers), entriesOf (m :: mid2), freshId,
            created, inserts⟩ =
          ⟨pre ++ ((m :: mid2) ++ strangers), entriesOf mid2, freshId, created,
            inserts⟩ := by
        simp only [syncStep, hlk, hdel]
        rw [if_pos hguard]
      rw [syncLoop, hstep]
      have hshape : pre ++ ((m :: mid2) ++ strangers) =
          (pre ++ [m]) ++ (mid2 ++ strangers) := by
        simp [List.append_assoc]
      have hlen : pre.length + 1 = (pre ++ [m]).length := by simp
      rw [hshape, hlen,
        ih (pre ++ [m]) mid2 strangers freshId created inserts hmt2 hml2
          (List.nodup_cons.mp hids).2]

/-- A reconciliation run over a layout already in reconciled shape — the
item views for the distinct `ids`, in order, followed by non-item widgets —
changes nothing: no view is created, none disposed, no `insertWidget` call
is made, and the children are untouched. -/
theorem reconcile_fixed (ids : List String) (mid strangers : List Widget)
    (freshId : Nat) (hmt : tagsOf mid = ids) (hml : mid.length = ids.length)
    (hids : ids.Nodup) (hstr : ∀ w ∈ strangers, w.tag = none) :
    reconcile ids (mid ++ strangers) freshId =
      ⟨mid ++ strangers, [], [], 0, freshId⟩ := by
  have htags : (tagsOf (mid ++ strangers)).Nodup := by
    rw [tagsOf_append, tagsOf_eq_nil_of_untagged hstr, List.append_nil, hmt]
    exact hids
  have hbm : buildMap (mid ++ strangers) = entriesOf mid := by
    rw [buildMap_eq_entriesOf htags, entriesOf_append,
      entriesOf_eq_nil_of_untagged hstr, List.append_nil]
  have hloop := syncLoop_fixed ids [] mid strangers freshId [] 0 hmt hml hids
  simp only [List.nil_append, List.length_nil] at hloop
  rw [reconcile, hbm, hloop]
  simp

/-! ## Reconciler: non-item children are untouched -/

/-- A widget at some index, with another widget removed at a different
occurrence, is still present. -/
theorem mem_eraseIdx_of_ne : ∀ {l : List Widget} {ci : Nat} {x v : Widget},
    l[ci]? = some v → x ∈ l → x ≠ v → x ∈ l.eraseIdx ci := by
  intro l
  induction l with
  | nil => intro ci x v h _ _; cases h
  | cons y ys ihl =>
    intro ci x v hci hx hne
    rcases ci with _ | ci2
    · have hy : y = v := by simpa using hci
      show x ∈ ys
      rcases List.mem_cons.mp hx with hx | hx
      · exact absurd (hx.trans hy) hne
      · exact hx
    · rw [List.eraseIdx_cons_succ]
      rcases List.mem_cons.mp hx with hx | hx
      · rw [hx]
        exact List.mem_cons_self y _
      · exact List.mem_cons_of_mem y (ihl (by simpa using hci) hx hne)

/-- `PanelLayout.insertWidget` never removes a child. -/
theorem mem_insertWidget {ws : List Widget} {x : Widget} (i : Nat) (v : Widget)
    (hx : x ∈ ws) : x ∈ insertWidget ws i v := by
  rw [insertWidget]
  rcases hidx : idxOf? v ws with _ | ci
  · simp only
    exact (List.mem_insertIdx (Nat.min_le_right i ws.length)).mpr (Or.inr hx)
  · simp only
    have hvi : ws[ci]? = some v := idxOf?_getElem hidx
    have hlt : ci < ws.length := by
      by_contra hc
      rw [List.getElem?_eq_none (Nat.le_of_not_lt hc)] at hvi
      cases hvi
    have hlen : (ws.eraseIdx ci).length = ws.length - 1 := by
      rw [List.length_eraseIdx]
      simp [hlt]
    have hmin : min i ws.length ≤ ws.length := Nat.min_le_right _ _
    split
    · split
      · exact hx
      · have hj2 : min i ws.length - 1 ≤ (ws.eraseIdx ci).length := by
          rw [hlen]
          omega
        by_cases hxv : x = v
        · rw [hxv]
          exact (List.mem_insertIdx hj2).mpr (Or.inl rfl)
        · exact (List.mem_insertIdx hj2).mpr
            (Or.inr (mem_eraseIdx_of_ne hvi hx hxv))
    · rename_i hne
      split
      · exact hx
      · have hj2 : min i ws.length ≤ (ws.eraseIdx ci).length := by
          rw [hlen]
          omega
        by_cases hxv : x = v
        · rw [hxv]
          exact (List.mem_insertIdx hj2).mpr (Or.inl rfl)
        · exact (List.mem_insertIdx hj2).mpr
            (Or.inr (mem_eraseIdx_of_ne hvi hx hxv))

/-- Coherence of an id map: every entry's value is an item view tagged with
the entry's key.  Non-item widgets can never appear among the values. -/
def coherentMap (m : List (String × Widget)) : Prop :=
  ∀ p ∈ m, p.2.tag = some p.1

/-- JS-object assignment of a coherent binding preserves coherence. -/
theorem coherent_mapInsert {m : List (String × Widget)} {k : String} {w : Widget}
    (h : coherentMap m) (hw : w.tag = some k) : coherentMap (mapInsert k w m) := by
  intro p hp
  rw [mapInsert] at hp
  split at hp
  · rcases List.mem_map.mp hp with ⟨q, hq, he⟩
    by_cases hqk : q.1 = k
    · rw [if_pos hqk] at he
      rw [← he]
      exact hw
    · rw [if_neg hqk] at he
      rw [← he]
      exact h q hq
  · rcases List.mem_append.mp hp with hp | hp
    · exact h p hp
    · rcases List.mem_cons.mp hp with hp | hp
      · rw [hp]
        exact hw
      · cases hp


/-- The `itemIdMap` built over the layout's children is coherent. -/
theorem coherent_buildMap (ws : List Widget) : coherentMap (buildMap ws) := by
  suffices h : ∀ acc : List (String × Widget), coherentMap acc →
      coherentMap (ws.foldl
        (fun m w => match w.tag with | some t => mapInsert t w m | none => m) acc) by
    exact h [] (fun p hp => absurd hp (List.not_mem_nil p))
  induction ws with
  | nil => intro acc hacc; exact hacc
  | cons x xs ihw =>
    intro acc hacc
    rw [List.foldl_cons]
    rcases ht : x.tag with _ | t
    · simp only [ht]
      exact ihw acc hacc
    · simp only [ht]
      exact ihw (mapInsert t x acc) (coherent_mapInsert hacc ht)

/-- JS-object deletion preserves coherence. -/
theorem coherent_mapDelete {m : List (String × Widget)} (k : String)
    (h : coherentMap m) : coherentMap (mapDelete k m) :=
  fun p hp => h p (List.mem_of_mem_filter hp)

/-- One loop iteration keeps every existing child in the layout and keeps
the id map coherent. -/
theorem syncStep_preserves {s : RecState} (i : Nat) (id : String) :
    (∀ x ∈ s.widgets, x ∈ (syncStep i id s).widgets) ∧
    (coherentMap s.lookupMap → coherentMap (syncStep i id s).lookupMap) := by
  simp only [syncStep]
  rcases hlk : mapLookup id s.lookupMap with _ | w <;> simp only
  · constructor
    · intro x hx
      split
      · exact hx
      · exact mem_insertWidget i _ hx
    · intro hco
      split
      · exact hco
      · exact hco
  · constructor
    · intro x hx
      split
      · exact hx
      · exact mem_insertWidget i _ hx
    · intro hco
      split
      · exact coherent_mapDelete id hco
      · exact coherent_mapDelete id hco

/-- The synchronization loop keeps every existing child in the layout and
keeps the id map coherent. -/
theorem syncLoop_preserves (ids : List String) :
    ∀ (i : Nat) (s : RecState),
      (∀ x ∈ s.widgets, x ∈ (syncLoop ids i s).widgets) ∧
      (coherentMap s.lookupMap → coherentMap (syncLoop ids i s).lookupMap) := by
  induction ids with
  | nil => intro i s; exact ⟨fun x hx => hx, fun h => h⟩
  | cons id ids2 ih =>
    intro i s
    rw [syncLoop]
    obtain ⟨hstepm, hstepc⟩ := syncStep_preserves (s := s) i id
    obtain ⟨hloopm, hloopc⟩ := ih (i + 1) (syncStep i id s)
    exact ⟨fun x hx => hloopm x (hstepm x hx), fun h => hloopc (hstepc h)⟩

/-- Surviving reconciliation expressed without the `keepB` shorthand: the
widget carries no id occurring in `ids`. -/
theorem keepB_iff_no_tag_mem {ids : List String} {w : Widget} :
    keepB ids w = true ↔ ∀ t2 ∈ ids, w.tag ≠ some t2 := by
  rcases h : w.tag with _ | t
  · simp [keepB, h]
  · simp only [keepB, h, decide_eq_true_eq]
    constructor
    · intro hn t2 ht2 hc
      have : t = t2 := by injection hc
      exact hn (this ▸ ht2)
    · intro hall hc
      exact hall t hc rfl

/-! ## Claims C1, C2, C10 about the reconciler -/

/-- Claim C1, amended: over a layout state whose children are pairwise
distinct widgets whose item views carry pairwise distinct ids, with a fresh
allocation counter, one reconciliation run leaves the item views in exactly
`ids` order; a live view is disposed if and only if its tagged id no longer
occurs in `ids`; a view whose id is still present survives as the very same
instance — it is never destroyed and recreated merely because its position
changed; and every created view is brand new, never a recycled child. -/
theorem reconcile_order_dispose_minimality (ids : List String)
    (ws : List Widget) (freshId : Nat) (w : Widget) (t : String)
    (hnd : ws.Nodup) (htags : (tagsOf ws).Nodup)
    (hfresh : ∀ x ∈ ws, x.wid < freshId) :
    tagsOf (reconcile ids ws freshId).widgets = ids ∧
    (w ∈ (reconcile ids ws freshId).disposed ↔
      (w ∈ ws ∧ w.tag ≠ none ∧ ∀ t2 ∈ ids, w.tag ≠ some t2)) ∧
    (w ∈ ws → w.tag = some t → t ∈ ids →
      w ∈ (reconcile ids ws freshId).widgets ∧
      w ∉ (reconcile ids ws freshId).disposed) ∧
    (w ∈ (reconcile ids ws freshId).created → w ∉ ws) := by
  rcases reconcile_spec ids ws freshId hnd htags hfresh with
    ⟨mid, strangers, hwid, _, _, horder, _, hdisp, hclaims, hcre⟩
  refine ⟨horder, ?_, ?_, ?_⟩
  · rw [hdisp w]
    constructor
    · rintro ⟨h1, h2, h3⟩
      exact ⟨h1, h2, keepB_iff_no_tag_mem.mp h3⟩
    · rintro ⟨h1, h2, h3⟩
      exact ⟨h1, h2, keepB_iff_no_tag_mem.mpr h3⟩
  · intro hwmem htag htmem
    constructor
    · rw [hwid]
      exact List.mem_append_left strangers (hclaims w hwmem t htag htmem)
    · intro hc
      obtain ⟨_, _, hkeep⟩ := (hdisp w).mp hc
      exact keepB_iff_no_tag_mem.mp hkeep t htmem htag
  · intro hc hwmem
    have h1 := hcre w hc
    have h2 := hfresh w hwmem
    omega

/-- Witness for claim C1 at the reorder scenario from the spec: live views
for ids `a, b, c` reconciled against model order `c, a, b`. -/
theorem reconcile_order_dispose_minimality_witness :
    tagsOf (reconcile ["c", "a", "b"]
        [⟨0, some "a"⟩, ⟨1, some "b"⟩, ⟨2, some "c"⟩] 3).widgets =
      ["c", "a", "b"] ∧
    ((⟨1, some "b"⟩ : Widget) ∈ (reconcile ["c", "a", "b"]
        [⟨0, some "a"⟩, ⟨1, some "b"⟩, ⟨2, some "c"⟩] 3).disposed ↔
      ((⟨1, some "b"⟩ : Widget) ∈
          [(⟨0, some "a"⟩ : Widget), ⟨1, some "b"⟩, ⟨2, some "c"⟩] ∧
        (⟨1, some "b"⟩ : Widget).tag ≠ none ∧
        ∀ t2 ∈ ["c", "a", "b"], (⟨1, some "b"⟩ : Widget).tag ≠ some t2)) ∧
    ((⟨1, some "b"⟩ : Widget) ∈
        [(⟨0, some "a"⟩ : Widget), ⟨1, some "b"⟩, ⟨2, some "c"⟩] →
      (⟨1, some "b"⟩ : Widget).tag = some "b" → "b" ∈ ["c", "a", "b"] →
      (⟨1, some "b"⟩ : Widget) ∈ (reconcile ["c", "a", "b"]
          [⟨0, some "a"⟩, ⟨1, some "b"⟩, ⟨2, some "c"⟩] 3).widgets ∧
      (⟨1, some "b"⟩ : Widget) ∉ (reconcile ["c", "a", "b"]
          [⟨0, some "a"⟩, ⟨1, some "b"⟩, ⟨2, some "c"⟩] 3).disposed) ∧
    ((⟨1, some "b"⟩ : Widget) ∈ (reconcile ["c", "a", "b"]
        [⟨0, some "a"⟩, ⟨1, some "b"⟩, ⟨2, some "c"⟩] 3).created →
      (⟨1, some "b"⟩ : Widget) ∉
        [(⟨0, some "a"⟩ : Widget), ⟨1, some "b"⟩, ⟨2, some "c"⟩]) :=
  reconcile_order_dispose_minimality ["c", "a", "b"]
    [⟨0, some "a"⟩, ⟨1, some "b"⟩, ⟨2, some "c"⟩] 3 ⟨1, some "b"⟩ "b"
    (by decide) (by decide) (by decide)

/-- Counterexample to claim C1 as stated for every live child list: with
two live views both tagged `"x"` and an empty model order, the first view
is not disposed although its tagged id no longer appears, and the resulting
item-view order does not match the model order. -/
theorem reconcile_duplicate_tags_counterexample :
    (⟨0, some "x"⟩ : Widget) ∈ [(⟨0, some "x"⟩ : Widget), ⟨1, some "x"⟩] ∧
    (⟨0, some "x"⟩ : Widget).tag = some "x" ∧
    ("x" : String) ∉ ([] : List String) ∧
    (⟨0, some "x"⟩ : Widget) ∉
      (reconcile [] [⟨0, some "x"⟩, ⟨1, some "x"⟩] 2).disposed ∧
    tagsOf (reconcile [] [⟨0, some "x"⟩, ⟨1, some "x"⟩] 2).widgets ≠
      ([] : List String) := by decide

/-- Claim C2, amended: over a layout state with pairwise distinct children,
pairwise distinct live item ids and pairwise distinct model ids, running
the reconciliation a second time with no intervening model change performs
zero operations: nothing is created, nothing is disposed, no
`insertWidget` call happens, and the children stay exactly as the first run
left them. -/
theorem reconcile_idempotent (ids : List String) (ws : List Widget)
    (freshId : Nat) (hnd : ws.Nodup) (htags : (tagsOf ws).Nodup)
    (hids : ids.Nodup) (hfresh : ∀ x ∈ ws, x.wid < freshId) :
    reconcile ids (reconcile ids ws freshId).widgets
        (reconcile ids ws freshId).freshId =
      ⟨(reconcile ids ws freshId).widgets, [], [], 0,
        (reconcile ids ws freshId).freshId⟩ := by
  rcases reconcile_spec ids ws freshId hnd htags hfresh with
    ⟨mid, strangers, hwid, hmt, hml, _, hstr, _, _, _⟩
  rw [hwid]
  exact reconcile_fixed ids mid strangers _ hmt hml hids
    (fun w hw => (hstr w hw).1)

/-- Witness for claim C2 at a concrete three-view area reordered once: the
second run changes nothing and performs no operation. -/
theorem reconcile_idempotent_witness :
    reconcile ["c", "a", "b"]
        (reconcile ["c", "a", "b"]
          [⟨0, some "a"⟩, ⟨1, some "b"⟩, ⟨2, some "c"⟩] 3).widgets
        (reconcile ["c", "a", "b"]
          [⟨0, some "a"⟩, ⟨1, some "b"⟩, ⟨2, some "c"⟩] 3).freshId =
      ⟨(reconcile ["c", "a", "b"]
          [⟨0, some "a"⟩, ⟨1, some "b"⟩, ⟨2, some "c"⟩] 3).widgets, [], [], 0,
        (reconcile ["c", "a", "b"]
          [⟨0, some "a"⟩, ⟨1, some "b"⟩, ⟨2, some "c"⟩] 3).freshId⟩ :=
  reconcile_idempotent ["c", "a", "b"]
    [⟨0, some "a"⟩, ⟨1, some "b"⟩, ⟨2, some "c"⟩] 3
    (by decide) (by decide) (by decide) (by decide)

/-- Counterexample to claim C2 as stated for every area state: with the
duplicated model order `["a", "a"]` the second reconciliation run creates a
fresh view and calls `insertWidget` again — it is not idempotent. -/
theorem reconcile_not_idempotent_counterexample :
    (reconcile ["a", "a"] (reconcile ["a", "a"] [] 0).widgets
        (reconcile ["a", "a"] [] 0).freshId).created ≠ [] ∧
    (reconcile ["a", "a"] (reconcile ["a", "a"] [] 0).widgets
        (reconcile ["a", "a"] [] 0).freshId).inserts ≠ 0 := by decide

/-- Claim C10: a child widget of the area's layout that is not an
`OutputItemView` is never entered into the id lookup, never disposed by the
stale-view sweep, and is still a child after any reconciliation run — with
no side condition on the rest of the layout state. -/
theorem non_item_children_preserved (ids : List String) (ws : List Widget)
    (freshId : Nat) (w : Widget) (hw : w ∈ ws) (htag : w.tag = none) :
    w ∈ (reconcile ids ws freshId).widgets ∧
    w ∉ (reconcile ids ws freshId).disposed ∧
    w ∉ (buildMap ws).map Prod.snd := by
  have hmapval : ∀ m : List (String × Widget), coherentMap m →
      w ∉ m.map Prod.snd := by
    intro m hco hc
    rcases List.mem_map.mp hc with ⟨p, hp, he⟩
    have hcoh := hco p hp
    rw [he, htag] at hcoh
    cases hcoh
  obtain ⟨hloopm, hloopc⟩ :=
    syncLoop_preserves ids 0 ⟨ws, buildMap ws, freshId, [], 0⟩
  have hmem : w ∈ (syncLoop ids 0 ⟨ws, buildMap ws, freshId, [], 0⟩).widgets :=
    hloopm w hw
  have hco2 : coherentMap
      (syncLoop ids 0 ⟨ws, buildMap ws, freshId, [], 0⟩).lookupMap :=
    hloopc (coherent_buildMap ws)
  have hleft : w ∉
      ((syncLoop ids 0 ⟨ws, buildMap ws, freshId, [], 0⟩).lookupMap).map
        Prod.snd := hmapval _ hco2
  refine ⟨?_, ?_, hmapval _ (coherent_buildMap ws)⟩
  · show w ∈ ((syncLoop ids 0 ⟨ws, buildMap ws, freshId, [], 0⟩).widgets.filter
      _)
    exact List.mem_filter.mpr ⟨hmem, decide_eq_true hleft⟩
  · exact hleft

/-- Witness for claim C10 at a concrete layout holding one non-item widget
next to an item view, reconciled against a model that drops the item. -/
theorem non_item_children_preserved_witness :
    (⟨5, none⟩ : Widget) ∈ (reconcile ["a"] [⟨5, none⟩, ⟨6, some "b"⟩] 7).widgets ∧
    (⟨5, none⟩ : Widget) ∉ (reconcile ["a"] [⟨5, none⟩, ⟨6, some "b"⟩] 7).disposed ∧
    (⟨5, none⟩ : Widget) ∉
      (buildMap [⟨5, none⟩, ⟨6, some "b"⟩]).map Prod.snd :=
  non_item_children_preserved ["a"] [⟨5, none⟩, ⟨6, some "b"⟩] 7 ⟨5, none⟩
    (by decide) rfl

end OutputAreaViews
